import Mathlib

/-!
A shallow embedding of the `ts-mongo-queue` core (`src/queue.ts`,
`src/helpers.ts`, `src/config.ts`, `src/index.ts`).

Modelling conventions:
* Timestamps are integers.  The code stores ISO-8601 strings produced by
  `now()` / `nowPlusSecs(secs)` and compares them with the store's `$lte` /
  `$gt` string comparison; for fixed-format ISO-8601 strings lexicographic
  order agrees with chronological order, so an integer clock (seconds) with
  `time + secs` for `nowPlusSecs` is order-faithful.
* The store-assigned `_id` values (ObjectIds) and the random ack tokens
  produced by `id()` (16 random bytes, hex) are modelled by two monotone
  counters carried in the store state: what the code relies on is that each
  generated value is distinct from every value generated before, which the
  counters realise exactly.
* `deleted: null` in a query matches documents where the field is absent or
  null; the code only ever writes a timestamp into `deleted`, so an
  `Option Int` with `none` for "absent" is exact, and `deleted: \x7b$exists:
  true\x7d` corresponds to `Option.isSome`.
* The backing collection is a list of documents in insertion order; the
  store's atomic `findOneAndUpdate` with `returnDocument: 'after'` is the
  pure function `findAndUpdate` below, and the `sort: \x7b_id: 1\x7d` option of
  `get` is rendered by first computing the minimal `_id` among the matching
  documents.
* Driver-level failures are not injected: the modelled store is total, so
  the `storeFailed` error constructor (the `catch` branches wrapping driver
  errors) is never produced by the model itself.
-/

/-- A message payload.  The core never inspects payloads (`raw` covers every
caller-supplied value); `dead` is the translated message shape
`\x7bid, ack, payload, tries\x7d` that `get` forwards to the dead queue's `add`. -/
inductive Payload where
  | raw : Nat → Payload
  | dead : Nat → Nat → Payload → Nat → Payload
deriving DecidableEq

/-- One message document of the backing collection.  Field names follow the
code: `ident` is the store-assigned `_id`, `visible` the next-eligible
timestamp, `ack` the (nullable) claim token, `deleted` the acknowledgment
timestamp, `tries` the claim counter (`$inc` on an absent field creates it,
so starting it at `0` on insert is exact). -/
structure Doc where
  ident : Nat
  payload : Payload
  visible : Int
  ack : Option Nat
  deleted : Option Int
  tries : Nat
deriving DecidableEq

/-- The backing collection plus the two generators (`ObjectId` supply for
`_id`, the `id()` token supply) and the current clock. -/
structure Store where
  docs : List Doc
  nextId : Nat
  nextTok : Nat
  time : Int
deriving DecidableEq

/-- The per-queue configuration recorded by the constructor: `visibility`
(default 60), `delay` (default 60), whether a dead queue was supplied, and
`maxRetries` (recorded, default 5, only when a dead queue was supplied). -/
structure QueueImpl where
  visibility : Nat
  delay : Int
  hasDead : Bool
  maxRetries : Option Nat
deriving DecidableEq

/-- The errors the queue operations throw.  `unidentifiedAck` is the
`Unidentified ack` error of `ack` / `ping`; `recursionLimit` is the
`Reached maximum get retries` error of `get`; `storeFailed` stands for a
driver-level failure surfaced through a `catch` wrapper (never produced by
the total model). -/
inductive QueueError where
  | unidentifiedAck : Nat → QueueError
  | recursionLimit : QueueError
  | storeFailed : QueueError
deriving DecidableEq

/-- The message shape `get` returns: `\x7bid, ack, payload, tries\x7d` built from
the post-update document. -/
structure GetMsg where
  id : Nat
  ack : Nat
  payload : Payload
  tries : Nat
deriving DecidableEq

/-- The result shape of `add` / `addMany`: store-assigned identity, the
placeholder ack token, and the payload unchanged. -/
structure AddRes where
  ident : Nat
  ack : Nat
  payload : Payload
deriving DecidableEq

/-- Outcome of one `get` call: a message, the no-message result
(`undefined`), an error, or exhaustion of the recursion fuel (the model's
fuel strictly dominates the possible recursion depth, see
`getAux_fuel_big_enough`-style lemmas below). -/
inductive GetOutcome where
  | ok : Option GetMsg → GetOutcome
  | err : QueueError → GetOutcome
  | fuelOut : GetOutcome
deriving DecidableEq

instance {ε α : Type} [DecidableEq ε] [DecidableEq α] : DecidableEq (Except ε α) := fun a b =>
  match a, b with
  | Except.ok x, Except.ok y =>
    if h : x = y then isTrue (by rw [h]) else isFalse (by intro hh; cases hh; exact h rfl)
  | Except.error x, Except.error y =>
    if h : x = y then isTrue (by rw [h]) else isFalse (by intro hh; cases hh; exact h rfl)
  | Except.ok _, Except.error _ => isFalse (by intro hh; cases hh)
  | Except.error _, Except.ok _ => isFalse (by intro hh; cases hh)

/-- JavaScript truthiness of a number: `0` is falsy, every other integer is
truthy (the code writes `delay ? nowPlusSecs(delay) : now()`). -/
def jsTruthy (n : Int) : Bool := n != 0

/-- The claim query of `get`: `deleted: null, visible: \x7b$lte: now()\x7d`. -/
def eligibleB (t : Int) (d : Doc) : Bool := d.deleted.isNone && decide (d.visible ≤ t)

/-- The query of `ack` and `ping`: `ack: <token>, deleted: null`. -/
def ackMatch (tok : Nat) (d : Doc) : Bool := d.ack == some tok && d.deleted.isNone

/-- The store's atomic `findOneAndUpdate` with `returnDocument: 'after'`:
rewrite the first document matching `p` with `f` and return its post-update
image, or report no match and leave the list unchanged. -/
def findAndUpdate (p : Doc → Bool) (f : Doc → Doc) : List Doc → Option Doc × List Doc
  | [] => (none, [])
  | d :: ds =>
    if p d then (some (f d), f d :: ds)
    else
      let r := findAndUpdate p f ds
      (r.1, d :: r.2)

/-- The minimal `_id` among the documents matching the claim query: renders
the `sort: \x7b_id: 1\x7d` option, under which `findOneAndUpdate` operates on
the matching document with the least `_id`. -/
def minEligIdent (t : Int) : List Doc → Option Nat
  | [] => none
  | d :: ds =>
    let r := minEligIdent t ds
    if eligibleB t d then
      some (match r with | none => d.ident | some a => min d.ident a)
    else r

/-- `Queue.add`: compute `visible` (`delay ? now + delay : now` with the
per-call override falling back to the queue's delay), insert
`\x7bvisible, payload, ack: id()\x7d`, return `\x7b_id, ack, payload\x7d`. -/
def addOp (q : QueueImpl) (delayOpt : Option Int) (p : Payload) (s : Store) :
    AddRes × Store :=
  let dl := delayOpt.getD q.delay
  let vis := if jsTruthy dl then s.time + dl else s.time
  let msg : Doc := ⟨s.nextId, p, vis, some s.nextTok, none, 0⟩
  (⟨s.nextId, s.nextTok, p⟩,
    { s with docs := s.docs ++ [msg], nextId := s.nextId + 1, nextTok := s.nextTok + 1 })

/-- The list of documents `Queue.addMany` builds with `payloads.map`: one
fresh token per payload, the shared `visible`, store ids assigned in input
order by `insertMany`. -/
def mkMsgs (vis : Int) : Nat → Nat → List Payload → List Doc
  | _, _, [] => []
  | i, t, p :: ps => ⟨i, p, vis, some t, none, 0⟩ :: mkMsgs vis (i + 1) (t + 1) ps

/-- The result list `Queue.addMany` returns: `\x7b_id, ack, payload\x7d` per
input payload, in input order. -/
def mkResults : Nat → Nat → List Payload → List AddRes
  | _, _, [] => []
  | i, t, p :: ps => ⟨i, t, p⟩ :: mkResults (i + 1) (t + 1) ps

/-- `Queue.addMany`: one shared `visible`, a fresh token per payload, one
`insertMany`, results in input order. -/
def addManyOp (q : QueueImpl) (delayOpt : Option Int) (ps : List Payload) (s : Store) :
    List AddRes × Store :=
  let dl := delayOpt.getD q.delay
  let vis := if jsTruthy dl then s.time + dl else s.time
  (mkResults s.nextId s.nextTok ps,
    { s with docs := s.docs ++ mkMsgs vis s.nextId s.nextTok ps,
             nextId := s.nextId + ps.length, nextTok := s.nextTok + ps.length })

/-- `Queue.ack`: atomically find `\x7back: tok, deleted: null\x7d`, set
`deleted: now()`, return the document's `_id`; `Unidentified ack` when no
document matches. -/
def ackOp (tok : Nat) (s : Store) : Except QueueError Nat × Store :=
  let r := findAndUpdate (ackMatch tok) (fun d => { d with deleted := some s.time }) s.docs
  match r.1 with
  | none => (Except.error (QueueError.unidentifiedAck tok), s)
  | some m => (Except.ok m.ident, { s with docs := r.2 })

/-- `Queue.ping`: atomically find `\x7back: tok, deleted: null\x7d`, set
`visible: now() + visibility` (per-call override falling back to the
queue's visibility), return the `_id`; `Unidentified ack` when no document
matches. -/
def pingOp (q : QueueImpl) (tok : Nat) (visOpt : Option Nat) (s : Store) :
    Except QueueError Nat × Store :=
  let visibility := visOpt.getD q.visibility
  let r := findAndUpdate (ackMatch tok)
    (fun d => { d with visible := s.time + (visibility : Int) }) s.docs
  match r.1 with
  | none => (Except.error (QueueError.unidentifiedAck tok), s)
  | some m => (Except.ok m.ident, { s with docs := r.2 })

/-- The atomic claim inside `Queue.get`: `findOneAndUpdate` on
`\x7bdeleted: null, visible: \x7b$lte: now()\x7d\x7d` sorted by `_id` ascending,
with `$inc: \x7btries: 1\x7d` and `$set: \x7back: id(), visible: now() +
visibility\x7d`, returning the transformed post-update document. -/
def claimOp (visibility : Nat) (s : Store) : Option GetMsg × Store :=
  match minEligIdent s.time s.docs with
  | none => (none, s)
  | some i =>
    let r := findAndUpdate (fun d => eligibleB s.time d && d.ident == i)
      (fun d => { d with tries := d.tries + 1, ack := some s.nextTok,
                         visible := s.time + ((visibility : Int)) }) s.docs
    match r.1 with
    | none => (none, s)
    | some m => (some ⟨m.ident, s.nextTok, m.payload, m.tries⟩,
        { s with docs := r.2, nextTok := s.nextTok + 1 })

/-- `Queue.get`, fuel-indexed.  Faithful to the source: the recursion-limit
check `retryCount > GET_RECURSION_LIMIT` precedes the claim; on a claim
whose `tries` exceeds `this.maxRetries ?? 5` with a dead queue configured,
the translated message is forwarded to `deadQueue.add`, acknowledged in the
source queue, and `get` recurses **with the same `opts`** (the code passes
`opts` unchanged, so `retryCount` is not incremented).  The final `Nat`
counts the atomic claim attempts issued.  `fuelOut` is only reachable when
the fuel is smaller than the recursion depth; the wrapper `getOp` supplies
dominating fuel. -/
def getAux (q dq : QueueImpl) (limit : Nat) (visOpt : Option Nat) (retryCount : Nat) :
    Nat → Store → Store → GetOutcome × Store × Store × Nat
  | 0, s, d => (GetOutcome.fuelOut, s, d, 0)
  | fuel + 1, s, d =>
    if retryCount > limit then (GetOutcome.err QueueError.recursionLimit, s, d, 0)
    else
      let visibility := visOpt.getD q.visibility
      match claimOp visibility s with
      | (none, s1) => (GetOutcome.ok none, s1, d, 1)
      | (some tm, s1) =>
        if q.hasDead && decide (tm.tries > q.maxRetries.getD 5) then
          let d1 := (addOp dq none (Payload.dead tm.id tm.ack tm.payload tm.tries) d).2
          match ackOp tm.ack s1 with
          | (Except.ok _, s2) =>
            let r := getAux q dq limit visOpt retryCount fuel s2 d1
            (r.1, r.2.1, r.2.2.1, r.2.2.2 + 1)
          | (Except.error e, s2) => (GetOutcome.err e, s2, d1, 1)
        else (GetOutcome.ok (some tm), s1, d, 1)

/-- `Queue.get` as called externally: the fuel is one more than the number
of documents, which strictly dominates the possible dead-letter recursion
depth (each recursion step permanently deletes one document). -/
def getOp (q dq : QueueImpl) (limit : Nat) (visOpt : Option Nat) (retryCount : Nat)
    (s d : Store) : GetOutcome × Store × Store × Nat :=
  getAux q dq limit visOpt retryCount (s.docs.length + 1) s d

/-- `Queue.clean`: `deleteMany` on `deleted: \x7b$exists: true\x7d` — keep
exactly the documents whose `deleted` field is absent. -/
def cleanOp (s : Store) : Store :=
  { s with docs := s.docs.filter (fun d => d.deleted.isNone) }

/-- `Queue.total`: `countDocuments()` with no filter. -/
def totalOp (s : Store) : Nat := s.docs.length

/-- `Queue.size`: count of `\x7bdeleted: null, visible: \x7b$lte: now()\x7d\x7d`. -/
def sizeOp (s : Store) : Nat := s.docs.countP (fun d => eligibleB s.time d)

/-- `Queue.inFlight`: count of `\x7back: \x7b$exists: true\x7d, visible:
\x7b$gt: now()\x7d, deleted: null\x7d`. -/
def inFlightOp (s : Store) : Nat :=
  s.docs.countP (fun d => d.ack.isSome && decide (s.time < d.visible) && d.deleted.isNone)

/-- `Queue.done`: count of `deleted: \x7b$exists: true\x7d`. -/
def doneOp (s : Store) : Nat := s.docs.countP (fun d => d.deleted.isSome)

/-- The connection handle passed to the constructor; `alive` is whether the
admin `ping` issued by `Queue.isConnected` succeeds. -/
structure Db where
  alive : Bool
deriving DecidableEq

/-- `Queue.isConnected`: the value the returned Promise resolves to — `true`
exactly when the admin `ping` succeeds. -/
def isConnected (db : Db) : Bool := db.alive

/-- What the constructor's guard actually observes of `Queue.isConnected(db)`:
the call is `async` and not awaited, so the guard negates the Promise
**object**, and every object is truthy in JavaScript — the probe's eventual
boolean (`isConnected`) is discarded regardless of the handle. -/
def isConnectedUnawaited (db : Db) : Bool := true

/-- The construction-time errors:`provideDb` is
`MongoQueue: provide a mongodb.MongoClient.db`, `provideName` is
`MongoQueue: Provide a queue name.`. -/
inductive CtorError where
  | provideDb : CtorError
  | provideName : CtorError
deriving DecidableEq

/-- The constructor's option object.  `deadQueue` records whether a dead
queue instance was supplied (its own configuration is a separate
`QueueImpl`). -/
structure ConstructOpts where
  visibility : Option Nat := none
  delay : Option Int := none
  deadQueue : Bool := false
  maxRetries : Option Nat := none
deriving DecidableEq

/-- The `Queue` constructor: `if (!db || !Queue.isConnected(db)) throw`;
`if (!name) throw`; then record `visibility` (default 60), `delay`
(default 60), and — only when `opts.deadQueue` is given — the dead queue
and `maxRetries` (default 5). -/
def construct (db : Option Db) (name : String) (opts : ConstructOpts) :
    Except CtorError QueueImpl :=
  if (match db with
      | none => true
      | some h => !(isConnectedUnawaited h)) then
    Except.error CtorError.provideDb
  else if name = "" then
    Except.error CtorError.provideName
  else
    Except.ok
      { visibility := opts.visibility.getD 60
        delay := opts.delay.getD 60
        hasDead := opts.deadQueue
        maxRetries := if opts.deadQueue then some (opts.maxRetries.getD 5) else none }

/-- All ack tokens stored in the documents were drawn from the token supply:
they are strictly below the next fresh token.  Established by the empty
store and preserved by every operation; it is what makes a freshly
generated token unique in the collection. -/
def TokensBelow (s : Store) : Prop :=
  ∀ d ∈ s.docs, ∀ k, d.ack = some k → k < s.nextTok

/-- Every document carries an `ack` field — true of every reachable state
because `add` / `addMany` write a placeholder token at insertion and no
operation ever unsets the field. -/
def AcksPresent (s : Store) : Prop := ∀ d ∈ s.docs, d.ack.isSome

/-- Number of not-yet-acknowledged documents; the dead-letter recursion of
`get` strictly decreases it, which bounds the recursion depth. -/
def undeletedCount (s : Store) : Nat := s.docs.countP (fun d => d.deleted.isNone)

/-- A queue with a dead queue configured, default options otherwise. -/
def qWithDead : QueueImpl := ⟨60, 60, true, some 5⟩

/-- A queue with no dead queue, default options. -/
def qPlain : QueueImpl := ⟨60, 60, false, none⟩

/-- A retry-exhausted document: `tries` already 9, visible, never
acknowledged; claiming it yields `tries = 10 > maxRetries`. -/
def deadDoc (i : Nat) : Doc := ⟨i, Payload.raw i, 0, some i, none, 9⟩

/-- A source store holding three consecutive retry-exhausted documents. -/
def threeDeadStore : Store := ⟨[deadDoc 0, deadDoc 1, deadDoc 2], 3, 3, 100⟩

/-- An empty store at clock 100. -/
def emptyStore : Store := ⟨[], 0, 0, 100⟩

/-- A fresh, never-claimed, currently visible document. -/
def freshDoc (i : Nat) : Doc := ⟨i, Payload.raw i, 0, some i, none, 0⟩

/-- A store holding one retry-exhausted document followed by one fresh
document. -/
def mixedStore : Store := ⟨[deadDoc 0, freshDoc 1], 2, 2, 100⟩


/-! ### Theorems -/

/-- C1: the recursion-limit guard fires only on the externally supplied
counter: at `retryCount = 2 > limit = 1` the call fails with the
`Reached maximum get retries` error, issuing no claim and leaving both
stores untouched.  But the dead-letter recursion passes `opts` — hence
`retryCount` — unchanged, so an external call (`retryCount = 0`) over three
consecutive retry-exhausted messages performs 4 atomic claim attempts,
exceeding the claimed bound `limit + 1 = 2`, and returns the no-message
result instead of failing: the claimed bound on claim attempts is false on
the code, contradicting the documented purpose of `GET_RECURSION_LIMIT`. -/
theorem get_recursion_limit_not_enforced :
    (getAux qWithDead qPlain 1 none 2 (threeDeadStore.docs.length + 1) threeDeadStore emptyStore
      = (GetOutcome.err QueueError.recursionLimit, threeDeadStore, emptyStore, 0))
    ∧ ((getOp qWithDead qPlain 1 none 0 threeDeadStore emptyStore).1 = GetOutcome.ok none)
    ∧ ((getOp qWithDead qPlain 1 none 0 threeDeadStore emptyStore).2.2.2 = 4)
    ∧ (1 + 1 < 4) := by
  decide

/-- C3: the constructor rejects a missing handle and an empty name, but a
handle whose liveness probe fails is accepted: `Queue.isConnected` is
`async` and the guard does not await it, so the Promise object is truthy
and its negation false regardless of the probe — construction succeeds with
a dead connection, recording the defaults (visibility 60, delay 60, and
`maxRetries` 5 recorded exactly when a dead queue is supplied). -/
theorem construct_ignores_liveness_probe :
    (construct none "q" {} = Except.error CtorError.provideDb)
    ∧ (construct (some ⟨true⟩) "" {} = Except.error CtorError.provideName)
    ∧ (isConnected ⟨false⟩ = false
        ∧ construct (some ⟨false⟩) "q" {} = Except.ok ⟨60, 60, false, none⟩)
    ∧ (construct (some ⟨true⟩) "q" ⟨some 30, some 10, true, none⟩
        = Except.ok ⟨30, 10, true, some 5⟩)
    ∧ (construct (some ⟨true⟩) "q" ⟨none, none, false, some 7⟩
        = Except.ok ⟨60, 60, false, none⟩) := by
  decide

/-- C5 (counterexample): a freshly added, never-claimed message (its
`tries` is 0) already carries an ack token, and that token is live — `ack`
accepts it and acknowledges the message — refuting "the ack field is
present exactly while the message is leased" and "a message that has never
been claimed does not carry an active ack token". -/
theorem add_placeholder_ack_cex :
    ((addOp qPlain none (Payload.raw 7) emptyStore).2.docs.map
        (fun d => (d.tries, d.ack.isSome)) = [(0, true)])
    ∧ ((ackOp ((addOp qPlain none (Payload.raw 7) emptyStore).1.ack)
          (addOp qPlain none (Payload.raw 7) emptyStore).2).1 = Except.ok 0) := by
  decide

/-- C7 (counterexample): `add` computes `visible` by JavaScript truthiness
of the delay, not by its sign: at delay `-1` (a value the claim maps to
`visible = now`) the inserted document's `visible` is `now - 1`, not
`now`. -/
theorem add_negative_delay_cex :
    ((addOp qPlain (some (-1)) (Payload.raw 0) emptyStore).2.docs.map Doc.visible = [99])
    ∧ ¬ ((addOp qPlain (some (-1)) (Payload.raw 0) emptyStore).2.docs.map Doc.visible
          = [emptyStore.time]) := by
  decide

/-! ### Helper lemmas about the store primitive -/

/-- `findOneAndUpdate` reports no match and leaves the collection unchanged
when no document satisfies the filter. -/
theorem findAndUpdate_eq_none (p : Doc → Bool) (f : Doc → Doc) (docs : List Doc)
    (h : ∀ d ∈ docs, p d = false) : findAndUpdate p f docs = (none, docs) := by
  induction docs with
  | nil => rfl
  | cons d ds ih =>
    have hd : p d = false := h d (List.mem_cons_self d ds)
    simp only [findAndUpdate, hd, Bool.false_eq_true, if_false]
    simp [ih (fun e he => h e (List.mem_cons_of_mem d he))]

/-- `findOneAndUpdate` rewrites the first matching document and returns its
post-update image. -/
theorem findAndUpdate_eq_some (p : Doc → Bool) (f : Doc → Doc) (pre : List Doc) (m : Doc)
    (post : List Doc) (hpre : ∀ e ∈ pre, p e = false) (hm : p m = true) :
    findAndUpdate p f (pre ++ m :: post) = (some (f m), pre ++ f m :: post) := by
  induction pre with
  | nil => simp [findAndUpdate, hm]
  | cons d ds ih =>
    have hd : p d = false := hpre d (List.mem_cons_self d ds)
    simp only [List.cons_append, findAndUpdate, hd, Bool.false_eq_true, if_false]
    simp [ih (fun e he => hpre e (List.mem_cons_of_mem d he))]

/-- Inversion: a reported match decomposes the collection at the first
matching document. -/
theorem findAndUpdate_some_decomp (p : Doc → Bool) (f : Doc → Doc) (docs : List Doc)
    (m2 : Doc) (h : (findAndUpdate p f docs).1 = some m2) :
    ∃ pre m post, docs = pre ++ m :: post ∧ (∀ e ∈ pre, p e = false) ∧ p m = true
      ∧ m2 = f m ∧ (findAndUpdate p f docs).2 = pre ++ f m :: post := by
  induction docs with
  | nil => simp [findAndUpdate] at h
  | cons d ds ih =>
    by_cases hd : p d = true
    · refine ⟨[], d, ds, rfl, by simp, hd, ?_, ?_⟩
      · simp only [findAndUpdate, hd, if_true] at h
        exact (Option.some_inj.1 h).symm
      · simp [findAndUpdate, hd]
    · have hd' : p d = false := by
        cases hpd : p d
        · rfl
        · exact absurd hpd hd
      simp only [findAndUpdate, hd', Bool.false_eq_true, if_false] at h ⊢
      obtain ⟨pre, m, post, hdocs, hpre, hm, hm2, hsnd⟩ := ih h
      exact ⟨d :: pre, m, post, by rw [List.cons_append, hdocs],
        fun e he => by
          rcases List.mem_cons.1 he with rfl | he2
          · exact hd'
          · exact hpre e he2,
        hm, hm2, by rw [List.cons_append, hsnd]⟩

/-- The claim filter matches nothing exactly when `minEligIdent` reports no
eligible document. -/
theorem minEligIdent_eq_none (t : Int) (docs : List Doc) :
    minEligIdent t docs = none ↔ ∀ d ∈ docs, eligibleB t d = false := by
  induction docs with
  | nil => simp [minEligIdent]
  | cons d ds ih =>
    by_cases hd : eligibleB t d = true
    · simp only [minEligIdent, hd, if_true]
      constructor
      · intro h; cases h
      · intro h; exact absurd (h d (List.mem_cons_self d ds)) (by simp [hd])
    · have hd' : eligibleB t d = false := by
        cases hpd : eligibleB t d
        · rfl
        · exact absurd hpd hd
      simp only [minEligIdent, hd', Bool.false_eq_true, if_false]
      rw [ih]
      constructor
      · intro h e he
        rcases List.mem_cons.1 he with rfl | he2
        · exact hd'
        · exact h e he2
      · intro h e he
        exact h e (List.mem_cons_of_mem d he)

/-- The identity `minEligIdent` reports belongs to an eligible document and
is minimal among the identities of eligible documents. -/
theorem minEligIdent_spec (t : Int) (docs : List Doc) (i : Nat)
    (h : minEligIdent t docs = some i) :
    (∃ m ∈ docs, eligibleB t m = true ∧ m.ident = i)
    ∧ ∀ e ∈ docs, eligibleB t e = true → i ≤ e.ident := by
  induction docs generalizing i with
  | nil => simp [minEligIdent] at h
  | cons d ds ih =>
    by_cases hd : eligibleB t d = true
    · simp only [minEligIdent, hd, if_true] at h
      rcases hr : minEligIdent t ds with _ | a
      · rw [hr] at h
        have hi : i = d.ident := (Option.some_inj.1 h).symm
        subst hi
        refine ⟨⟨d, List.mem_cons_self d ds, hd, rfl⟩, ?_⟩
        intro e he helig
        rcases List.mem_cons.1 he with rfl | he2
        · exact le_refl _
        · exact absurd helig (by simp [(minEligIdent_eq_none t ds).1 hr e he2])
      · rw [hr] at h
        have hi : i = min d.ident a := (Option.some_inj.1 h).symm
        subst hi
        obtain ⟨⟨m, hm, hmelig, hma⟩, hmin⟩ := ih a hr
        constructor
        · rcases le_total d.ident a with hle | hle
          · exact ⟨d, List.mem_cons_self d ds, hd, (min_eq_left hle).symm⟩
          · exact ⟨m, List.mem_cons_of_mem d hm, hmelig, by rw [hma, min_eq_right hle]⟩
        · intro e he helig
          rcases List.mem_cons.1 he with rfl | he2
          · exact min_le_left _ _
          · exact le_trans (min_le_right _ _) (hmin e he2 helig)
    · have hd' : eligibleB t d = false := by
        cases hpd : eligibleB t d
        · rfl
        · exact absurd hpd hd
      simp only [minEligIdent, hd', Bool.false_eq_true, if_false] at h
      obtain ⟨⟨m, hm, hmelig, hma⟩, hmin⟩ := ih i h
      refine ⟨⟨m, List.mem_cons_of_mem d hm, hmelig, hma⟩, ?_⟩
      intro e he helig
      rcases List.mem_cons.1 he with rfl | he2
      · exact absurd helig (by simp [hd'])
      · exact hmin e he2 helig

/-! ### Operation-level lemmas -/

/-- When no document is eligible the claim is a no-op reporting no match. -/
theorem claimOp_eq_none (v : Nat) (s : Store)
    (h : ∀ d ∈ s.docs, eligibleB s.time d = false) : claimOp v s = (none, s) := by
  simp [claimOp, (minEligIdent_eq_none s.time s.docs).2 h]

/-- Inversion of a successful claim: the collection splits at the updated
document, which is eligible, carries the least identity among eligible
documents, had no earlier occurrence matching the claim filter, and is
rewritten in place with `tries + 1`, the fresh token, and the new
visibility; the returned message is its post-update image, and only the
token supply advances besides. -/
theorem claimOp_some_decomp (v : Nat) (s : Store) (tm : GetMsg) (s1 : Store)
    (h : claimOp v s = (some tm, s1)) :
    ∃ pre m post,
      s.docs = pre ++ m :: post
      ∧ eligibleB s.time m = true
      ∧ (∀ e ∈ s.docs, eligibleB s.time e = true → m.ident ≤ e.ident)
      ∧ tm = ⟨m.ident, s.nextTok, m.payload, m.tries + 1⟩
      ∧ s1 = { s with docs := pre ++ ({ m with tries := m.tries + 1, ack := some s.nextTok, visible := s.time + ((v : Int)) }) :: post, nextTok := s.nextTok + 1 } := by
  rcases hm : minEligIdent s.time s.docs with _ | i
  · simp only [claimOp, hm] at h
    exact absurd (congrArg Prod.fst h) (by simp)
  · obtain ⟨-, hmin⟩ := minEligIdent_spec s.time s.docs i hm
    simp only [claimOp, hm] at h
    rcases hfau : (findAndUpdate (fun d => eligibleB s.time d && d.ident == i)
        (fun d => { d with tries := d.tries + 1, ack := some s.nextTok,
                           visible := s.time + ((v : Int)) }) s.docs).1 with _ | m2
    · simp only [hfau] at h
      exact absurd (congrArg Prod.fst h) (by simp)
    · simp only [hfau] at h
      obtain ⟨pre, m, post, hdocs, hpre, hpm, hm2, hsnd⟩ :=
        findAndUpdate_some_decomp _ _ s.docs m2 hfau
      simp only [Bool.and_eq_true, beq_iff_eq] at hpm
      obtain ⟨helig, hid⟩ := hpm
      have h1 : some (⟨m2.ident, s.nextTok, m2.payload, m2.tries⟩ : GetMsg) = some tm :=
        congrArg Prod.fst h
      have htm : tm = ⟨m2.ident, s.nextTok, m2.payload, m2.tries⟩ := (Option.some_inj.1 h1).symm
      have h2 := congrArg Prod.snd h
      rw [hsnd] at h2
      rw [hm2] at htm
      refine ⟨pre, m, post, hdocs, helig, ?_, ?_, ?_⟩
      · intro e he hee
        rw [hid]
        exact hmin e he hee
      · exact htm
      · exact h2.symm

/-- `ack` on a token matched by no document fails with the unidentified-ack
error and leaves the store unchanged. -/
theorem ackOp_eq_error (tok : Nat) (s : Store)
    (h : ∀ d ∈ s.docs, ackMatch tok d = false) :
    ackOp tok s = (Except.error (QueueError.unidentifiedAck tok), s) := by
  simp [ackOp, findAndUpdate_eq_none _ _ s.docs h]

/-- `ack` on the token of the (unique) matching document sets its `deleted`
timestamp to now, changes nothing else, and returns its identity. -/
theorem ackOp_eq_ok (tok : Nat) (s : Store) (pre : List Doc) (m : Doc) (post : List Doc)
    (hdocs : s.docs = pre ++ m :: post) (hpre : ∀ e ∈ pre, ackMatch tok e = false)
    (hm : ackMatch tok m = true) :
    ackOp tok s = (Except.ok m.ident,
      { s with docs := pre ++ ({ m with deleted := some s.time }) :: post }) := by
  rw [ackOp, hdocs, findAndUpdate_eq_some _ _ pre m post hpre hm]

/-- `ping` on a token matched by no document fails with the unidentified-ack
error and leaves the store unchanged. -/
theorem pingOp_eq_error (q : QueueImpl) (tok : Nat) (visOpt : Option Nat) (s : Store)
    (h : ∀ d ∈ s.docs, ackMatch tok d = false) :
    pingOp q tok visOpt s = (Except.error (QueueError.unidentifiedAck tok), s) := by
  simp [pingOp, findAndUpdate_eq_none _ _ s.docs h]

/-- `ping` on the token of the (unique) matching document resets only its
`visible` timestamp to now plus the effective visibility and returns its
identity; `tries`, `payload`, `ack` and `deleted` are untouched. -/
theorem pingOp_eq_ok (q : QueueImpl) (tok : Nat) (visOpt : Option Nat) (s : Store)
    (pre : List Doc) (m : Doc) (post : List Doc)
    (hdocs : s.docs = pre ++ m :: post) (hpre : ∀ e ∈ pre, ackMatch tok e = false)
    (hm : ackMatch tok m = true) :
    pingOp q tok visOpt s = (Except.ok m.ident,
      { s with docs := pre ++ ({ m with visible := s.time + ((visOpt.getD q.visibility : Nat) : Int) }) :: post }) := by
  rw [pingOp, hdocs, findAndUpdate_eq_some _ _ pre m post hpre hm]

/-! ### Lemmas about `getAux` -/

/-- `add` only appends: every payload already present stays present. -/
theorem addOp_payload_mono (q : QueueImpl) (delayOpt : Option Int) (p : Payload) (s : Store)
    (pl : Payload) (h : pl ∈ s.docs.map Doc.payload) :
    pl ∈ (addOp q delayOpt p s).2.docs.map Doc.payload := by
  simp only [addOp, List.map_append, List.mem_append]
  exact Or.inl h

/-- The payload `add` inserts is present afterwards. -/
theorem addOp_payload_self (q : QueueImpl) (delayOpt : Option Int) (p : Payload) (s : Store) :
    p ∈ (addOp q delayOpt p s).2.docs.map Doc.payload := by
  simp [addOp]

/-- The dead-letter store only ever grows during `get`: payloads present in
it before the call are present after it. -/
theorem getAux_dead_mono (q dq : QueueImpl) (limit : Nat) (visOpt : Option Nat) (rc : Nat) :
    ∀ (fuel : Nat) (s d : Store) (pl : Payload), pl ∈ d.docs.map Doc.payload →
      pl ∈ ((getAux q dq limit visOpt rc fuel s d).2.2.1).docs.map Doc.payload := by
  intro fuel
  induction fuel with
  | zero => intro s d pl hp; exact hp
  | succ fuel ih =>
    intro s d pl hp
    by_cases hrc : rc > limit
    · simp only [getAux, if_pos hrc]
      exact hp
    · simp only [getAux, if_neg hrc]
      split
      · exact hp
      · rename_i tm s1 hc
        by_cases hb : (q.hasDead && decide (tm.tries > q.maxRetries.getD 5)) = true
        · rw [if_pos hb]
          split
          · exact ih _ _ pl (addOp_payload_mono dq none _ d pl hp)
          · exact addOp_payload_mono dq none _ d pl hp
        · rw [if_neg hb]
          exact hp

/-- A claim that reports no message leaves the store unchanged. -/
theorem claimOp_none_decomp (v : Nat) (s : Store) (s1 : Store)
    (h : claimOp v s = (none, s1)) : s1 = s := by
  rcases hm : minEligIdent s.time s.docs with _ | i
  · simp only [claimOp, hm] at h
    rw [Prod.mk.injEq] at h
    exact h.2.symm
  · simp only [claimOp, hm] at h
    rcases hfau : (findAndUpdate (fun d => eligibleB s.time d && d.ident == i)
        (fun d => { d with tries := d.tries + 1, ack := some s.nextTok,
                           visible := s.time + ((v : Int)) }) s.docs).1 with _ | m2
    · simp only [hfau] at h
      rw [Prod.mk.injEq] at h
      exact h.2.symm
    · simp only [hfau] at h
      rw [Prod.mk.injEq] at h
      exact absurd h.1 (by simp)

/-- Inversion of a successful `ack`: the collection splits at the first
document matching the token, which is marked deleted in place; the returned
identity is that document's. -/
theorem ackOp_ok_decomp (tok : Nat) (s : Store) (id2 : Nat) (s2 : Store)
    (h : ackOp tok s = (Except.ok id2, s2)) :
    ∃ pre m post, s.docs = pre ++ m :: post ∧ (∀ e ∈ pre, ackMatch tok e = false)
      ∧ ackMatch tok m = true ∧ id2 = m.ident
      ∧ s2 = { s with docs := pre ++ ({ m with deleted := some s.time }) :: post } := by
  rcases hfau : (findAndUpdate (ackMatch tok)
      (fun d => { d with deleted := some s.time }) s.docs).1 with _ | m2
  · simp only [ackOp, hfau] at h
    rw [Prod.mk.injEq] at h
    exact absurd h.1 (by simp)
  · simp only [ackOp, hfau] at h
    rw [Prod.mk.injEq] at h
    obtain ⟨pre, m, post, hdocs, hpre, hpm, hm2, hsnd⟩ :=
      findAndUpdate_some_decomp _ _ s.docs m2 hfau
    refine ⟨pre, m, post, hdocs, hpre, hpm, ?_, ?_⟩
    · have h1 := h.1
      injection h1 with h1
      rw [← h1, hm2]
    · have h2 := h.2
      rw [hsnd] at h2
      exact h2.symm

/-- Inversion of a failed `ack`: the store is unchanged and the error is the
unidentified-ack error for the token. -/
theorem ackOp_error_decomp (tok : Nat) (s : Store) (e : QueueError) (s2 : Store)
    (h : ackOp tok s = (Except.error e, s2)) :
    s2 = s ∧ e = QueueError.unidentifiedAck tok := by
  rcases hfau : (findAndUpdate (ackMatch tok)
      (fun d => { d with deleted := some s.time }) s.docs).1 with _ | m2
  · simp only [ackOp, hfau] at h
    rw [Prod.mk.injEq] at h
    refine ⟨h.2.symm, ?_⟩
    have h1 := h.1
    injection h1 with h1
    exact h1.symm
  · simp only [ackOp, hfau] at h
    rw [Prod.mk.injEq] at h
    exact absurd h.1 (by simp)

/-- Replacing one document in a collection by a document with the same
identity and a no-less-deleted marker preserves the existence of a deleted
document with a given identity. -/
theorem deleted_witness_replace (pre post : List Doc) (m m2 : Doc) (i : Nat)
    (hid : m2.ident = m.ident) (hdel : m.deleted.isSome = true → m2.deleted.isSome = true)
    (h : ∃ e ∈ pre ++ m :: post, e.ident = i ∧ e.deleted.isSome = true) :
    ∃ e ∈ pre ++ m2 :: post, e.ident = i ∧ e.deleted.isSome = true := by
  obtain ⟨e, he, hei, hed⟩ := h
  rcases List.mem_append.1 he with hin | hin
  · exact ⟨e, List.mem_append_left _ hin, hei, hed⟩
  · rcases List.mem_cons.1 hin with rfl | hin2
    · exact ⟨m2, List.mem_append_right _ (List.mem_cons_self _ _),
        by rw [hid, hei], hdel hed⟩
    · exact ⟨e, List.mem_append_right _ (List.mem_cons_of_mem _ hin2), hei, hed⟩

/-- Once a document is acknowledged (deleted) it stays so through the rest
of a `get` call: no step of `getAux` ever unsets a `deleted` marker. -/
theorem getAux_deleted_stable (q dq : QueueImpl) (limit : Nat) (visOpt : Option Nat) (rc : Nat) :
    ∀ (fuel : Nat) (s d : Store) (i : Nat),
      (∃ e ∈ s.docs, e.ident = i ∧ e.deleted.isSome = true) →
      ∃ e ∈ (getAux q dq limit visOpt rc fuel s d).2.1.docs,
        e.ident = i ∧ e.deleted.isSome = true := by
  intro fuel
  induction fuel with
  | zero => intro s d i hp; exact hp
  | succ fuel ih =>
    intro s d i hp
    by_cases hrc : rc > limit
    · simp only [getAux, if_pos hrc]
      exact hp
    · simp only [getAux, if_neg hrc]
      split
      · rename_i s1 hc
        rw [claimOp_none_decomp _ _ _ hc]
        exact hp
      · rename_i tm s1 hc
        obtain ⟨pre, m, post, hdocs, helig, hmin, htm, hs1⟩ :=
          claimOp_some_decomp _ _ _ _ hc
        have hp1 : ∃ e ∈ s1.docs, e.ident = i ∧ e.deleted.isSome = true := by
          rw [hs1]
          exact deleted_witness_replace pre post m _ i rfl (fun hx => hx) (hdocs ▸ hp)
        by_cases hb : (q.hasDead && decide (tm.tries > q.maxRetries.getD 5)) = true
        · rw [if_pos hb]
          split
          · rename_i a s2 ha
            obtain ⟨pre2, m2, post2, hdocs2, hpre2, hm2, hid2, hs2⟩ :=
              ackOp_ok_decomp _ _ _ _ ha
            refine ih s2 _ i ?_
            rw [hs2]
            exact deleted_witness_replace pre2 post2 m2 _ i rfl (fun _ => rfl)
              (hdocs2 ▸ hp1)
          · rename_i e s2 ha
            have := (ackOp_error_decomp _ _ _ _ ha).1
            rw [this]
            exact hp1
        · rw [if_neg hb]
          exact hp1

/-- A document whose token differs from `tok` (or which has none) does not
match the ack query. -/
theorem ackMatch_false_of_ne (tok : Nat) (e : Doc)
    (h : ∀ k, e.ack = some k → k ≠ tok) : ackMatch tok e = false := by
  rcases hk : e.ack with _ | k
  · simp [ackMatch, hk]
  · simp [ackMatch, hk, h k hk]

/-- Totality of `get` on token-fresh stores: with the externally supplied
counter within the limit and fuel dominating the number of live documents,
the call returns (no error, no fuel exhaustion), and — when a dead queue is
configured — any returned message has `tries` within the retry budget. -/
theorem getAux_returns (q dq : QueueImpl) (limit : Nat) (visOpt : Option Nat) (rc : Nat)
    (hrc : rc ≤ limit) :
    ∀ (fuel : Nat) (s d : Store), TokensBelow s → undeletedCount s < fuel →
      ∃ o, (getAux q dq limit visOpt rc fuel s d).1 = GetOutcome.ok o
        ∧ (q.hasDead = true → ∀ r, o = some r → r.tries ≤ q.maxRetries.getD 5) := by
  intro fuel
  induction fuel with
  | zero => intro s d hB hf; exact absurd hf (Nat.not_lt_zero _)
  | succ fuel ih =>
    intro s d hB hf
    simp only [getAux, if_neg (Nat.not_lt.mpr hrc)]
    split
    · exact ⟨none, rfl, fun _ r hr => by cases hr⟩
    · rename_i tm s1 hc
      obtain ⟨pre, m, post, hdocs, helig, hmin, htm, hs1⟩ := claimOp_some_decomp _ _ _ _ hc
      have hmdel : m.deleted.isNone = true := by
        have helig2 := helig
        rw [eligibleB, Bool.and_eq_true] at helig2
        exact helig2.1
      by_cases hb : (q.hasDead && decide (tm.tries > q.maxRetries.getD 5)) = true
      · rw [if_pos hb]
        subst htm
        subst hs1
        have hack := ackOp_eq_ok s.nextTok
          ({ s with docs := pre ++ ({ m with tries := m.tries + 1, ack := some s.nextTok, visible := s.time + ((visOpt.getD q.visibility : Nat) : Int) }) :: post, nextTok := s.nextTok + 1 })
          pre ({ m with tries := m.tries + 1, ack := some s.nextTok, visible := s.time + ((visOpt.getD q.visibility : Nat) : Int) }) post rfl
          (fun e he => ackMatch_false_of_ne _ e (fun k hk hkt => by
            have hks : k < s.nextTok :=
              hB e (hdocs ▸ List.mem_append_left _ he) k hk
            rw [hkt] at hks
            exact absurd hks (lt_irrefl _)))
          (by simp [ackMatch, hmdel])
        split
        · rename_i a s2 ha
          rw [hack] at ha
          rw [Prod.mk.injEq] at ha
          have hs2 := ha.2
          have hB2 : TokensBelow s2 := by
            rw [← hs2]
            intro e he k hk
            show k < s.nextTok + 1
            simp only [List.mem_append, List.mem_cons] at he
            rcases he with he | he | he
            · have := hB e (hdocs ▸ List.mem_append_left _ he) k hk
              omega
            · subst he
              simp only at hk
              injection hk with hk
              omega
            · have := hB e (hdocs ▸ List.mem_append_right _ (List.mem_cons_of_mem _ he)) k hk
              omega
          have hcount : undeletedCount s2 < fuel := by
            rw [← hs2]
            have h1 : undeletedCount s =
                (pre.countP (fun d => d.deleted.isNone))
                  + ((post.countP (fun d => d.deleted.isNone)) + 1) := by
              simp [undeletedCount, hdocs, List.countP_append, List.countP_cons, hmdel]
            simp only [undeletedCount, List.countP_append, List.countP_cons]
            simp only [Option.isNone_some, Bool.false_eq_true, if_false]
            omega
          obtain ⟨o, ho, hbound⟩ := ih s2 _ hB2 hcount
          exact ⟨o, ho, hbound⟩
        · rename_i e s2 ha
          rw [hack] at ha
          rw [Prod.mk.injEq] at ha
          exact absurd ha.1 (by simp)
      · rw [if_neg hb]
        refine ⟨some tm, rfl, ?_⟩
        intro hD r hr
        injection hr with hr
        subst hr
        rw [hD, Bool.true_and] at hb
        simp only [decide_eq_true_eq] at hb
        omega

/-- One dead-letter escalation step of `get`: when the claim yields a
message over the retry budget and a dead queue is configured, the message
is forwarded to the dead store via `add`, acknowledged (marked deleted) in
the source store via its fresh token, and the call continues as `get` on
the remaining documents with the recursion counter unchanged. -/
theorem getAux_dead_step (q dq : QueueImpl) (limit : Nat) (visOpt : Option Nat) (rc : Nat)
    (hrc : rc ≤ limit) (fuel : Nat) (s d : Store) (tm : GetMsg) (s1 : Store)
    (hB : TokensBelow s)
    (hclaim : claimOp (visOpt.getD q.visibility) s = (some tm, s1))
    (hdead : q.hasDead = true) (hex : tm.tries > q.maxRetries.getD 5) :
    ∃ s2 : Store,
      ackOp tm.ack s1 = (Except.ok tm.id, s2)
      ∧ TokensBelow s2
      ∧ undeletedCount s2 + 1 = undeletedCount s
      ∧ (∃ e ∈ s2.docs, e.ident = tm.id ∧ e.deleted.isSome = true)
      ∧ getAux q dq limit visOpt rc (fuel + 1) s d
          = ((getAux q dq limit visOpt rc fuel s2
                (addOp dq none (Payload.dead tm.id tm.ack tm.payload tm.tries) d).2).1,
             (getAux q dq limit visOpt rc fuel s2
                (addOp dq none (Payload.dead tm.id tm.ack tm.payload tm.tries) d).2).2.1,
             (getAux q dq limit visOpt rc fuel s2
                (addOp dq none (Payload.dead tm.id tm.ack tm.payload tm.tries) d).2).2.2.1,
             (getAux q dq limit visOpt rc fuel s2
                (addOp dq none (Payload.dead tm.id tm.ack tm.payload tm.tries) d).2).2.2.2 + 1) := by
  obtain ⟨pre, m, post, hdocs, helig, hmin, htm, hs1⟩ := claimOp_some_decomp _ _ _ _ hclaim
  have hmdel : m.deleted.isNone = true := by
    have helig2 := helig
    rw [eligibleB, Bool.and_eq_true] at helig2
    exact helig2.1
  subst htm
  subst hs1
  have hack := ackOp_eq_ok s.nextTok
      ({ s with docs := pre ++ ({ m with tries := m.tries + 1, ack := some s.nextTok, visible := s.time + ((visOpt.getD q.visibility : Nat) : Int) }) :: post, nextTok := s.nextTok + 1 })
      pre ({ m with tries := m.tries + 1, ack := some s.nextTok, visible := s.time + ((visOpt.getD q.visibility : Nat) : Int) }) post rfl
      (fun e he => ackMatch_false_of_ne _ e (fun k hk hkt => by
        have hks : k < s.nextTok := hB e (hdocs ▸ List.mem_append_left _ he) k hk
        rw [hkt] at hks
        exact absurd hks (lt_irrefl _)))
      (by simp [ackMatch, hmdel])
  refine ⟨_, hack, ?_, ?_, ?_, ?_⟩
  · intro e he k hk
    show k < s.nextTok + 1
    simp only [List.mem_append, List.mem_cons] at he
    rcases he with he | he | he
    · have := hB e (hdocs ▸ List.mem_append_left _ he) k hk
      omega
    · subst he
      injection hk with hk
      omega
    · have := hB e (hdocs ▸ List.mem_append_right _ (List.mem_cons_of_mem _ he)) k hk
      omega
  · have h1 : undeletedCount s =
        (pre.countP (fun d => d.deleted.isNone))
          + ((post.countP (fun d => d.deleted.isNone)) + 1) := by
      simp [undeletedCount, hdocs, List.countP_append, List.countP_cons, hmdel]
    simp only [undeletedCount] at h1
    simp only [undeletedCount, List.countP_append, List.countP_cons]
    simp only [Option.isNone_some, Bool.false_eq_true, if_false]
    omega
  · refine ⟨_, List.mem_append_right _ (List.mem_cons_self _ _), rfl, rfl⟩
  · have hbtrue : (q.hasDead && decide
        ((⟨m.ident, s.nextTok, m.payload, m.tries + 1⟩ : GetMsg).tries
          > q.maxRetries.getD 5)) = true := by
      rw [hdead]
      simp only [Bool.true_and, decide_eq_true_eq]
      exact hex
    simp only [getAux, if_neg (Nat.not_lt.mpr hrc), hclaim]
    rw [if_pos hbtrue]
    simp only [hack]

/-- C2: with a dead queue configured, when the atomic claim of an external
`get` call (counter 0) returns a message whose try count strictly exceeds
`maxRetries` (`this.maxRetries ?? 5`), the call forwards the translated
message to the dead queue's `add` (its payload is in the final dead store),
acknowledges it in the source queue with its freshly issued token (the
source document ends the call marked deleted), and does not return it: the
call completes without error and any message it does return has `tries`
within the retry budget — the next eligible message or the no-message
result, within the same call. -/
theorem get_dead_letter (q dq : QueueImpl) (limit : Nat) (visOpt : Option Nat)
    (s d : Store) (hdead : q.hasDead = true) (hB : TokensBelow s)
    (tm : GetMsg) (s1 : Store)
    (hclaim : claimOp (visOpt.getD q.visibility) s = (some tm, s1))
    (hex : tm.tries > q.maxRetries.getD 5) :
    (Payload.dead tm.id tm.ack tm.payload tm.tries
        ∈ ((getOp q dq limit visOpt 0 s d).2.2.1).docs.map Doc.payload)
    ∧ (∃ e ∈ (getOp q dq limit visOpt 0 s d).2.1.docs,
        e.ident = tm.id ∧ e.deleted.isSome = true)
    ∧ (∃ o, (getOp q dq limit visOpt 0 s d).1 = GetOutcome.ok o
        ∧ ∀ r, o = some r → r.tries ≤ q.maxRetries.getD 5) := by
  obtain ⟨s2, hack, hB2, hcnt, hwit, heq⟩ :=
    getAux_dead_step q dq limit visOpt 0 (Nat.zero_le _) s.docs.length s d tm s1
      hB hclaim hdead hex
  have hlen : undeletedCount s ≤ s.docs.length := List.countP_le_length _
  have hgo : getOp q dq limit visOpt 0 s d
      = getAux q dq limit visOpt 0 (s.docs.length + 1) s d := rfl
  rw [hgo, heq]
  refine ⟨?_, ?_, ?_⟩
  · exact getAux_dead_mono q dq limit visOpt 0 s.docs.length s2 _ _
      (addOp_payload_self dq none _ d)
  · exact getAux_deleted_stable q dq limit visOpt 0 s.docs.length s2 _ tm.id hwit
  · obtain ⟨o, ho, hbd⟩ := getAux_returns q dq limit visOpt 0 (Nat.zero_le _)
      s.docs.length s2 _ hB2 (by omega)
    exact ⟨o, ho, hbd hdead⟩

/-- C6: with no dead queue configured, an external `get` call (counter 0)
either finds no document matching `deleted` absent and `visible <= now` and
returns the no-message result (not an error) leaving everything unchanged,
or performs exactly one atomic claim: the collection splits at the
claimed document, which is eligible and carries the least identity among
eligible documents (oldest first), is updated in place with `tries`
incremented by exactly 1, a freshly generated token, and
`visible = now + visibility` (per-call override or queue default), and the
call returns `\x7bidentity, ack, payload, tries\x7d` read off the post-update
document. -/
theorem get_claim_spec (q dq : QueueImpl) (limit : Nat) (visOpt : Option Nat)
    (s d : Store) (hnd : q.hasDead = false) :
    ((∀ x ∈ s.docs, eligibleB s.time x = false) →
      getOp q dq limit visOpt 0 s d = (GetOutcome.ok none, s, d, 1))
    ∧ (∀ tm s1, claimOp (visOpt.getD q.visibility) s = (some tm, s1) →
        getOp q dq limit visOpt 0 s d = (GetOutcome.ok (some tm), s1, d, 1)
        ∧ ∃ pre m post,
            s.docs = pre ++ m :: post
            ∧ eligibleB s.time m = true
            ∧ (∀ e ∈ s.docs, eligibleB s.time e = true → m.ident ≤ e.ident)
            ∧ tm = ⟨m.ident, s.nextTok, m.payload, m.tries + 1⟩
            ∧ s1 = { s with docs := pre ++ ({ m with tries := m.tries + 1, ack := some s.nextTok, visible := s.time + ((visOpt.getD q.visibility : Nat) : Int) }) :: post, nextTok := s.nextTok + 1 }) := by
  constructor
  · intro h
    have hno := claimOp_eq_none (visOpt.getD q.visibility) s h
    show getAux q dq limit visOpt 0 (s.docs.length + 1) s d = _
    simp only [getAux, if_neg (Nat.not_lt.mpr (Nat.zero_le _)), hno]
  · intro tm s1 hclaim
    constructor
    · show getAux q dq limit visOpt 0 (s.docs.length + 1) s d = _
      simp only [getAux, if_neg (Nat.not_lt.mpr (Nat.zero_le _)), hclaim, hnd,
        Bool.false_and, Bool.false_eq_true, if_false]
    · exact claimOp_some_decomp _ _ _ _ hclaim

/-- C4: `ack` atomically finds the document with the given token and
`deleted` absent; when exactly the split-off document matches, it sets that
document's `deleted` to now — changing nothing else — and returns its
identity; when no document matches, it fails with the unidentified-ack
error (leaving the store unchanged), an error distinct from the
store-failure and recursion-limit errors, so the failure kinds remain
distinguishable by the caller. -/
theorem ack_spec (tok : Nat) (s : Store) :
    ((∀ d ∈ s.docs, ackMatch tok d = false) →
      ackOp tok s = (Except.error (QueueError.unidentifiedAck tok), s))
    ∧ (∀ pre m post, s.docs = pre ++ m :: post →
        (∀ e ∈ pre, ackMatch tok e = false) → ackMatch tok m = true →
        ackOp tok s = (Except.ok m.ident,
          { s with docs := pre ++ ({ m with deleted := some s.time }) :: post }))
    ∧ (∀ t2, QueueError.unidentifiedAck t2 ≠ QueueError.storeFailed
        ∧ QueueError.unidentifiedAck t2 ≠ QueueError.recursionLimit) := by
  refine ⟨ackOp_eq_error tok s, ?_, ?_⟩
  · intro pre m post hdocs hpre hm
    exact ackOp_eq_ok tok s pre m post hdocs hpre hm
  · intro t2
    exact ⟨(fun h => nomatch h), (fun h => nomatch h)⟩

/-- C8: `ping` on a token with a matching document (ack equal to the token,
`deleted` absent) rewrites only that document's `visible` to now plus the
effective visibility — the in-place record update keeps `tries`, `payload`,
`ack`, `deleted` and the identity unchanged — and returns the document's
identity; it fails with the unidentified-ack error exactly when no document
matches, in which case the store is unchanged. -/
theorem ping_spec (q : QueueImpl) (tok : Nat) (visOpt : Option Nat) (s : Store) :
    ((∀ d ∈ s.docs, ackMatch tok d = false) →
      pingOp q tok visOpt s = (Except.error (QueueError.unidentifiedAck tok), s))
    ∧ (∀ pre m post, s.docs = pre ++ m :: post →
        (∀ e ∈ pre, ackMatch tok e = false) → ackMatch tok m = true →
        pingOp q tok visOpt s = (Except.ok m.ident,
          { s with docs := pre ++ ({ m with visible := s.time + ((visOpt.getD q.visibility : Nat) : Int) }) :: post })
        ∧ ({ m with visible := s.time + ((visOpt.getD q.visibility : Nat) : Int) } : Doc).tries = m.tries
        ∧ ({ m with visible := s.time + ((visOpt.getD q.visibility : Nat) : Int) } : Doc).payload = m.payload
        ∧ ({ m with visible := s.time + ((visOpt.getD q.visibility : Nat) : Int) } : Doc).deleted = m.deleted) := by
  refine ⟨pingOp_eq_error q tok visOpt s, ?_⟩
  intro pre m post hdocs hpre hm
  exact ⟨pingOp_eq_ok q tok visOpt s pre m post hdocs hpre hm, rfl, rfl, rfl⟩

/-- C9: on a collection in which every document carries an `ack` field (as
every document created through `add`/`addMany` does), the filters of
`size` (`deleted` absent, `visible <= now`), `inFlight` (`ack` present,
`visible > now`, `deleted` absent) and `done` (`deleted` present) classify
each document into exactly one bucket, so the three counts sum to `total`
when all four are evaluated on the same instantaneous state. -/
theorem counts_partition (s : Store) (h : AcksPresent s) :
    sizeOp s + inFlightOp s + doneOp s = totalOp s := by
  have main : ∀ l : List Doc, (∀ e ∈ l, e.ack.isSome = true) →
      (List.countP (fun d => eligibleB s.time d) l)
      + (List.countP (fun d => d.ack.isSome && decide (s.time < d.visible) && d.deleted.isNone) l)
      + (List.countP (fun d => d.deleted.isSome) l) = l.length := by
    intro l
    induction l with
    | nil => intro h2; rfl
    | cons e es ih =>
      intro hl
      have he : e.ack.isSome = true := hl e (List.mem_cons_self _ _)
      have hes := ih (fun x hx => hl x (List.mem_cons_of_mem _ hx))
      simp only [eligibleB] at hes
      simp only [List.countP_cons, List.length_cons]
      rcases hdel : e.deleted with _ | x
      · rcases le_or_lt e.visible s.time with hv | hv
        · have hnv : ¬ s.time < e.visible := not_lt.2 hv
          simp only [eligibleB, hdel, Option.isNone_none, Bool.true_and, hv,
            decide_eq_true_eq, if_pos, he, hnv, decide_eq_false hnv, Bool.and_false,
            Bool.false_and, Option.isSome_none, Bool.false_eq_true, if_false,
            decide_eq_true hv, Bool.and_true, if_true]
          omega
        · have hnv : ¬ e.visible ≤ s.time := not_le.2 hv
          simp only [eligibleB, hdel, Option.isNone_none, Bool.true_and,
            decide_eq_false hnv, Bool.false_eq_true, if_false, he, decide_eq_true hv,
            Bool.true_and, Bool.and_true, Option.isSome_none, if_true]
          omega
      · simp only [eligibleB, hdel, Option.isNone_some, Bool.false_and, Bool.and_false,
          Bool.false_eq_true, if_false, Option.isSome_some, if_true]
        omega
  exact main s.docs h

/-- The batch results carry the input payloads unchanged, in input order. -/
theorem mkResults_map_payload : ∀ (ps : List Payload) (i t : Nat),
    (mkResults i t ps).map AddRes.payload = ps := by
  intro ps
  induction ps with
  | nil => intro i t; rfl
  | cons p ps ih =>
    intro i t
    simp only [mkResults, List.map_cons, ih]

/-- The batch results are one per input payload. -/
theorem mkResults_length : ∀ (ps : List Payload) (i t : Nat),
    (mkResults i t ps).length = ps.length := by
  intro ps
  induction ps with
  | nil => intro i t; rfl
  | cons p ps ih =>
    intro i t
    simp only [mkResults, List.length_cons, ih]

/-- Every document of a batch insert carries the shared `visible`
timestamp, no `deleted` marker, a zero try count, and an ack token. -/
theorem mkMsgs_mem (vis : Int) : ∀ (ps : List Payload) (i t : Nat) (m : Doc),
    m ∈ mkMsgs vis i t ps →
    m.visible = vis ∧ m.deleted = none ∧ m.tries = 0 ∧ m.ack.isSome = true := by
  intro ps
  induction ps with
  | nil => intro i t m hm; cases hm
  | cons p ps ih =>
    intro i t m hm
    rcases List.mem_cons.1 hm with rfl | hm2
    · exact ⟨rfl, rfl, rfl, rfl⟩
    · exact ih (i + 1) (t + 1) m hm2

/-- The stored ack tokens of a batch are exactly the returned placeholder
tokens, document by document. -/
theorem mkMsgs_map_ack (vis : Int) : ∀ (ps : List Payload) (i t : Nat),
    (mkMsgs vis i t ps).map Doc.ack = (mkResults i t ps).map (fun r => some r.ack) := by
  intro ps
  induction ps with
  | nil => intro i t; rfl
  | cons p ps ih =>
    intro i t
    simp only [mkMsgs, mkResults, List.map_cons, ih]

/-- Every token of a batch is at least the supply's starting value. -/
theorem mkResults_ack_lb : ∀ (ps : List Payload) (i t : Nat) (r : AddRes),
    r ∈ mkResults i t ps → t ≤ r.ack := by
  intro ps
  induction ps with
  | nil => intro i t r hr; cases hr
  | cons p ps ih =>
    intro i t r hr
    rcases List.mem_cons.1 hr with rfl | hr2
    · exact le_refl _
    · exact le_trans (Nat.le_succ _) (ih (i + 1) (t + 1) r hr2)

/-- The placeholder tokens of one batch are pairwise distinct (fresh token
per payload). -/
theorem mkResults_ack_nodup : ∀ (ps : List Payload) (i t : Nat),
    ((mkResults i t ps).map AddRes.ack).Nodup := by
  intro ps
  induction ps with
  | nil => intro i t; exact List.nodup_nil
  | cons p ps ih =>
    intro i t
    simp only [mkResults, List.map_cons]
    refine List.nodup_cons.2 ⟨?_, ih (i + 1) (t + 1)⟩
    intro hmem
    obtain ⟨r, hr, hrt⟩ := List.mem_map.1 hmem
    have := mkResults_ack_lb ps (i + 1) (t + 1) r hr
    omega

/-- C7 (amended): `add` and `addMany` compute one shared
`visible = now + d` when the effective delay `d` is nonzero and
`visible = now` when it is zero (the code branches on JavaScript
truthiness, so a negative delay also lands on `now + d`); each payload gets
a fresh placeholder token, pairwise distinct within a batch and stored
verbatim in the inserted document's `ack` field; the returned records carry
the store-assigned identity, that token, and the payload unchanged — one
result per input payload, in input order. -/
theorem add_addMany_spec (q : QueueImpl) (delayOpt : Option Int) (p : Payload)
    (ps : List Payload) (s : Store) :
    (addOp q delayOpt p s = (⟨s.nextId, s.nextTok, p⟩, { s with docs := s.docs ++ [⟨s.nextId, p, (if delayOpt.getD q.delay ≠ 0 then s.time + delayOpt.getD q.delay else s.time), some s.nextTok, none, 0⟩], nextId := s.nextId + 1, nextTok := s.nextTok + 1 }))
    ∧ (addManyOp q delayOpt ps s = (mkResults s.nextId s.nextTok ps, { s with docs := s.docs ++ mkMsgs (if delayOpt.getD q.delay ≠ 0 then s.time + delayOpt.getD q.delay else s.time) s.nextId s.nextTok ps, nextId := s.nextId + ps.length, nextTok := s.nextTok + ps.length }))
    ∧ ((addManyOp q delayOpt ps s).1.map AddRes.payload = ps)
    ∧ ((addManyOp q delayOpt ps s).1.length = ps.length)
    ∧ (∀ m ∈ mkMsgs
          (if delayOpt.getD q.delay ≠ 0 then s.time + delayOpt.getD q.delay else s.time)
          s.nextId s.nextTok ps,
        m.visible = (if delayOpt.getD q.delay ≠ 0 then s.time + delayOpt.getD q.delay else s.time)
        ∧ m.deleted = none ∧ m.tries = 0 ∧ m.ack.isSome = true)
    ∧ ((mkMsgs (if delayOpt.getD q.delay ≠ 0 then s.time + delayOpt.getD q.delay else s.time)
          s.nextId s.nextTok ps).map Doc.ack
        = ((addManyOp q delayOpt ps s).1.map (fun r => some r.ack)))
    ∧ (((addManyOp q delayOpt ps s).1.map AddRes.ack).Nodup) := by
  have hvis : (if jsTruthy (delayOpt.getD q.delay) then s.time + delayOpt.getD q.delay else s.time)
      = (if delayOpt.getD q.delay ≠ 0 then s.time + delayOpt.getD q.delay else s.time) := by
    by_cases h : delayOpt.getD q.delay = 0
    · simp [jsTruthy, h]
    · simp [jsTruthy, h]
  refine ⟨?_, ?_, ?_, ?_, ?_, ?_, ?_⟩
  · simp only [addOp, hvis]
  · simp only [addManyOp, hvis]
  · exact mkResults_map_payload ps s.nextId s.nextTok
  · exact mkResults_length ps s.nextId s.nextTok
  · intro m hm
    exact mkMsgs_mem _ ps s.nextId s.nextTok m hm
  · exact mkMsgs_map_ack _ ps s.nextId s.nextTok
  · exact mkResults_ack_nodup ps s.nextId s.nextTok

/-- `findOneAndUpdate` preserves presence of the `ack` field whenever the
mutation does. -/
theorem findAndUpdate_acks (p : Doc → Bool) (f : Doc → Doc)
    (hf : ∀ x : Doc, x.ack.isSome = true → (f x).ack.isSome = true) :
    ∀ docs : List Doc, (∀ e ∈ docs, e.ack.isSome = true) →
      ∀ e ∈ (findAndUpdate p f docs).2, e.ack.isSome = true := by
  intro docs
  induction docs with
  | nil => intro h e he; cases he
  | cons d ds ih =>
    intro h e he
    by_cases hd : p d = true
    · simp only [findAndUpdate, hd, if_true] at he
      rcases List.mem_cons.1 he with rfl | he2
      · exact hf d (h d (List.mem_cons_self _ _))
      · exact h e (List.mem_cons_of_mem _ he2)
    · have hd' : p d = false := by
        cases hx : p d
        · rfl
        · exact absurd hx hd
      simp only [findAndUpdate, hd', Bool.false_eq_true, if_false] at he
      rcases List.mem_cons.1 he with rfl | he2
      · exact h e (List.mem_cons_self _ _)
      · exact ih (fun x hx => h x (List.mem_cons_of_mem _ hx)) e he2

/-- The claim step never removes an `ack` field. -/
theorem claimOp_acks (v : Nat) (s : Store) (hs : AcksPresent s) :
    AcksPresent (claimOp v s).2 := by
  rcases hc : claimOp v s with ⟨otm, s1⟩
  cases otm with
  | none =>
    rw [claimOp_none_decomp v s s1 hc]
    exact hs
  | some tm =>
    obtain ⟨pre, m, post, hdocs, helig, hmin, htm, hs1⟩ := claimOp_some_decomp _ _ _ _ hc
    subst hs1
    intro e he
    simp only [List.mem_append, List.mem_cons] at he
    rcases he with he | he | he
    · exact hs e (hdocs ▸ List.mem_append_left _ he)
    · subst he; rfl
    · exact hs e (hdocs ▸ List.mem_append_right _ (List.mem_cons_of_mem _ he))

/-- `ack` never removes an `ack` field (it only sets `deleted`). -/
theorem ackOp_acks (tok : Nat) (s : Store) (hs : AcksPresent s) :
    AcksPresent (ackOp tok s).2 := by
  rcases hfau : (findAndUpdate (ackMatch tok)
      (fun d => { d with deleted := some s.time }) s.docs).1 with _ | m2
  · simp only [ackOp, hfau]
    exact hs
  · simp only [ackOp, hfau]
    intro e he
    exact findAndUpdate_acks (ackMatch tok) (fun d => { d with deleted := some s.time })
      (fun x hx => hx) s.docs hs e he

/-- `ping` never removes an `ack` field (it only sets `visible`). -/
theorem pingOp_acks (q : QueueImpl) (tok : Nat) (visOpt : Option Nat) (s : Store)
    (hs : AcksPresent s) : AcksPresent (pingOp q tok visOpt s).2 := by
  rcases hfau : (findAndUpdate (ackMatch tok)
      (fun d => { d with visible := s.time + ((visOpt.getD q.visibility : Nat) : Int) }) s.docs).1 with _ | m2
  · simp only [pingOp, hfau]
    exact hs
  · simp only [pingOp, hfau]
    intro e he
    exact findAndUpdate_acks (ackMatch tok)
      (fun d => { d with visible := s.time + ((visOpt.getD q.visibility : Nat) : Int) })
      (fun x hx => hx) s.docs hs e he

/-- `add` inserts a document that carries an `ack` token. -/
theorem addOp_acks (q : QueueImpl) (delayOpt : Option Int) (p : Payload) (s : Store)
    (hs : AcksPresent s) : AcksPresent (addOp q delayOpt p s).2 := by
  intro e he
  simp only [addOp, List.mem_append, List.mem_cons, List.not_mem_nil, or_false] at he
  rcases he with he | he
  · exact hs e he
  · subst he; rfl

/-- Both stores of a `get` call keep every document's `ack` field present. -/
theorem getAux_acks (q dq : QueueImpl) (limit : Nat) (visOpt : Option Nat) (rc : Nat) :
    ∀ (fuel : Nat) (s d : Store), AcksPresent s → AcksPresent d →
      AcksPresent (getAux q dq limit visOpt rc fuel s d).2.1
      ∧ AcksPresent (getAux q dq limit visOpt rc fuel s d).2.2.1 := by
  intro fuel
  induction fuel with
  | zero => intro s d hs hd; exact ⟨hs, hd⟩
  | succ fuel ih =>
    intro s d hs hd
    by_cases hrc : rc > limit
    · simp only [getAux, if_pos hrc]
      exact ⟨hs, hd⟩
    · simp only [getAux, if_neg hrc]
      split
      · rename_i s1 hc
        rw [claimOp_none_decomp _ _ _ hc]
        exact ⟨hs, hd⟩
      · rename_i tm s1 hc
        have hs1 : AcksPresent s1 := by
          have := claimOp_acks (visOpt.getD q.visibility) s hs
          rw [hc] at this
          exact this
        by_cases hb : (q.hasDead && decide (tm.tries > q.maxRetries.getD 5)) = true
        · rw [if_pos hb]
          have hd1 : AcksPresent
              (addOp dq none (Payload.dead tm.id tm.ack tm.payload tm.tries) d).2 :=
            addOp_acks dq none _ d hd
          split
          · rename_i a s2 ha
            have hs2 : AcksPresent s2 := by
              have := ackOp_acks tm.ack s1 hs1
              rw [ha] at this
              exact this
            exact ih s2 _ hs2 hd1
          · rename_i e s2 ha
            have hs2 : AcksPresent s2 := by
              have := ackOp_acks tm.ack s1 hs1
              rw [ha] at this
              exact this
            exact ⟨hs2, hd1⟩
        · rw [if_neg hb]
          exact ⟨hs1, hd⟩

/-- C5 (amended): the `ack` field is present on every document at all
times, not exactly while leased: `add`/`addMany` write a placeholder token
at insertion, the claim inside `get` overwrites it with a fresh token, and
`ack`/`ping` (and hence acknowledgment) never clear it — so every operation
preserves all-documents-carry-ack, and `clean` only removes documents. -/
theorem ack_field_always_present (q dq : QueueImpl) (limit : Nat) (delayOpt : Option Int)
    (visOpt : Option Nat) (rc : Nat) (p : Payload) (ps : List Payload) (tok : Nat)
    (s d : Store) (hs : AcksPresent s) (hd : AcksPresent d) :
    AcksPresent (addOp q delayOpt p s).2
    ∧ AcksPresent (addManyOp q delayOpt ps s).2
    ∧ AcksPresent (claimOp (visOpt.getD q.visibility) s).2
    ∧ AcksPresent (ackOp tok s).2
    ∧ AcksPresent (pingOp q tok visOpt s).2
    ∧ AcksPresent (getOp q dq limit visOpt rc s d).2.1
    ∧ AcksPresent (getOp q dq limit visOpt rc s d).2.2.1
    ∧ AcksPresent (cleanOp s) := by
  refine ⟨addOp_acks q delayOpt p s hs, ?_, claimOp_acks _ s hs, ackOp_acks tok s hs,
    pingOp_acks q tok visOpt s hs, (getAux_acks q dq limit visOpt rc _ s d hs hd).1,
    (getAux_acks q dq limit visOpt rc _ s d hs hd).2, ?_⟩
  · intro e he
    simp only [addManyOp, List.mem_append] at he
    rcases he with he | he
    · exact hs e he
    · exact (mkMsgs_mem _ ps s.nextId s.nextTok e he).2.2.2
  · intro e he
    exact hs e (List.mem_of_mem_filter he)

/-- C10: the placeholder token `add` returns for a freshly inserted message
is live even though no claim ever happened: with a positive effective
delay, the inserted document is unclaimed (`tries = 0`) and not yet visible
(`visible > now`), yet because `ack` and `ping` match solely on the token
plus `deleted` absent, `ack` with the placeholder succeeds, marks the
message deleted, and returns its identity, and `ping` with the placeholder
succeeds and resets the message's `visible` timestamp. -/
theorem placeholder_token_usable (q : QueueImpl) (delayOpt : Option Int) (visOpt : Option Nat)
    (p : Payload) (s : Store) (hB : TokensBelow s) (hdl : 0 < delayOpt.getD q.delay) :
    addOp q delayOpt p s = (⟨s.nextId, s.nextTok, p⟩, { s with docs := s.docs ++ [⟨s.nextId, p, s.time + delayOpt.getD q.delay, some s.nextTok, none, 0⟩], nextId := s.nextId + 1, nextTok := s.nextTok + 1 })
    ∧ (⟨s.nextId, p, s.time + delayOpt.getD q.delay, some s.nextTok, none, 0⟩ : Doc).tries = 0
    ∧ s.time < (⟨s.nextId, p, s.time + delayOpt.getD q.delay, some s.nextTok, none, 0⟩ : Doc).visible
    ∧ ackOp s.nextTok (addOp q delayOpt p s).2 = (Except.ok s.nextId, { s with docs := s.docs ++ [⟨s.nextId, p, s.time + delayOpt.getD q.delay, some s.nextTok, some s.time, 0⟩], nextId := s.nextId + 1, nextTok := s.nextTok + 1 })
    ∧ pingOp q s.nextTok visOpt (addOp q delayOpt p s).2 = (Except.ok s.nextId, { s with docs := s.docs ++ [⟨s.nextId, p, s.time + ((visOpt.getD q.visibility : Nat) : Int), some s.nextTok, none, 0⟩], nextId := s.nextId + 1, nextTok := s.nextTok + 1 }) := by
  have hne : delayOpt.getD q.delay ≠ 0 := by omega
  have hjs : jsTruthy (delayOpt.getD q.delay) = true := by
    simp [jsTruthy, hne]
  have hadd : addOp q delayOpt p s = (⟨s.nextId, s.nextTok, p⟩, { s with docs := s.docs ++ [⟨s.nextId, p, s.time + delayOpt.getD q.delay, some s.nextTok, none, 0⟩], nextId := s.nextId + 1, nextTok := s.nextTok + 1 }) := by
    simp only [addOp, hjs, if_true]
  have hpre : ∀ e ∈ s.docs, ackMatch s.nextTok e = false := by
    intro e he
    refine ackMatch_false_of_ne _ e (fun k hk hkt => ?_)
    have := hB e he k hk
    omega
  have hmatch : ackMatch s.nextTok
      (⟨s.nextId, p, s.time + delayOpt.getD q.delay, some s.nextTok, none, 0⟩ : Doc) = true := by
    simp [ackMatch]
  refine ⟨hadd, rfl, by show s.time < s.time + delayOpt.getD q.delay; omega, ?_, ?_⟩
  · rw [hadd]
    have := ackOp_eq_ok s.nextTok
      ({ s with docs := s.docs ++ [⟨s.nextId, p, s.time + delayOpt.getD q.delay, some s.nextTok, none, 0⟩], nextId := s.nextId + 1, nextTok := s.nextTok + 1 })
      s.docs (⟨s.nextId, p, s.time + delayOpt.getD q.delay, some s.nextTok, none, 0⟩ : Doc) []
      rfl hpre hmatch
    exact this
  · rw [hadd]
    have := pingOp_eq_ok q s.nextTok visOpt
      ({ s with docs := s.docs ++ [⟨s.nextId, p, s.time + delayOpt.getD q.delay, some s.nextTok, none, 0⟩], nextId := s.nextId + 1, nextTok := s.nextTok + 1 })
      s.docs (⟨s.nextId, p, s.time + delayOpt.getD q.delay, some s.nextTok, none, 0⟩ : Doc) []
      rfl hpre hmatch
    exact this

/-- The two-document fixture store has all its stored tokens below the
token supply. -/
theorem mixedStore_tokensBelow : TokensBelow mixedStore := by
  intro d hd k hk
  show k < 2
  simp only [mixedStore, deadDoc, freshDoc, List.mem_cons, List.not_mem_nil, or_false] at hd
  rcases hd with rfl | rfl
  · injection hk with hk
    omega
  · injection hk with hk
    omega

/-- C2 witness at a concrete state: one retry-exhausted document before a
fresh one. -/
theorem get_dead_letter_witness :
    (Payload.dead 0 2 (Payload.raw 0) 10
      ∈ ((getOp qWithDead qPlain 500 none 0 mixedStore emptyStore).2.2.1).docs.map Doc.payload)
    ∧ (∃ e ∈ (getOp qWithDead qPlain 500 none 0 mixedStore emptyStore).2.1.docs,
        e.ident = 0 ∧ e.deleted.isSome = true)
    ∧ (∃ o, (getOp qWithDead qPlain 500 none 0 mixedStore emptyStore).1 = GetOutcome.ok o
        ∧ ∀ r, o = some r → r.tries ≤ qWithDead.maxRetries.getD 5) :=
  get_dead_letter qWithDead qPlain 500 none mixedStore emptyStore rfl
    mixedStore_tokensBelow ⟨0, 2, Payload.raw 0, 10⟩
    ⟨[⟨0, Payload.raw 0, 160, some 2, none, 10⟩, freshDoc 1], 2, 3, 100⟩
    (by decide) (by decide)

/-- C4 witness at a concrete state: acknowledging the first document by its
token marks it deleted and returns its identity. -/
theorem ack_spec_witness :
    ackOp 0 mixedStore = (Except.ok (deadDoc 0).ident,
      { mixedStore with docs := [] ++ ({ deadDoc 0 with deleted := some mixedStore.time }) :: [freshDoc 1] }) :=
  (ack_spec 0 mixedStore).2.1 [] (deadDoc 0) [freshDoc 1] rfl (by decide) (by decide)

/-- C6 witness at a concrete state: the claim takes the older eligible
document, increments its tries, installs the fresh token and visibility,
and `get` returns its post-update image. -/
theorem get_claim_spec_witness :
    getOp qPlain qPlain 500 none 0 mixedStore emptyStore
      = (GetOutcome.ok (some ⟨0, 2, Payload.raw 0, 10⟩),
         ⟨[⟨0, Payload.raw 0, 160, some 2, none, 10⟩, freshDoc 1], 2, 3, 100⟩,
         emptyStore, 1) :=
  ((get_claim_spec qPlain qPlain 500 none mixedStore emptyStore rfl).2
    ⟨0, 2, Payload.raw 0, 10⟩
    ⟨[⟨0, Payload.raw 0, 160, some 2, none, 10⟩, freshDoc 1], 2, 3, 100⟩
    (by decide)).1

/-- C8 witness at a concrete state: pinging the second document by its
token rewrites only its visibility. -/
theorem ping_spec_witness :
    pingOp qPlain 1 none mixedStore = (Except.ok (freshDoc 1).ident,
      { mixedStore with docs := [deadDoc 0] ++ ({ freshDoc 1 with visible := mixedStore.time + ((((none : Option Nat).getD qPlain.visibility) : Nat) : Int) }) :: [] })
    ∧ ({ freshDoc 1 with visible := mixedStore.time + ((((none : Option Nat).getD qPlain.visibility) : Nat) : Int) } : Doc).tries = (freshDoc 1).tries :=
  ⟨((ping_spec qPlain 1 none mixedStore).2 [deadDoc 0] (freshDoc 1) [] rfl (by decide) (by decide)).1,
   ((ping_spec qPlain 1 none mixedStore).2 [deadDoc 0] (freshDoc 1) [] rfl (by decide) (by decide)).2.1⟩

/-- C9 witness at a concrete state. -/
theorem counts_partition_witness :
    sizeOp mixedStore + inFlightOp mixedStore + doneOp mixedStore = totalOp mixedStore :=
  counts_partition mixedStore (by
    intro d hd
    simp only [mixedStore, deadDoc, freshDoc, List.mem_cons, List.not_mem_nil, or_false] at hd
    rcases hd with rfl | rfl <;> rfl)

/-- C5 (amended) witness at a concrete state: every operation leaves all
documents carrying an `ack` field. -/
theorem ack_field_always_present_witness :
    AcksPresent (addOp qPlain none (Payload.raw 7) mixedStore).2
    ∧ AcksPresent (addManyOp qPlain none [Payload.raw 5] mixedStore).2
    ∧ AcksPresent (claimOp ((none : Option Nat).getD qPlain.visibility) mixedStore).2
    ∧ AcksPresent (ackOp 0 mixedStore).2
    ∧ AcksPresent (pingOp qPlain 0 none mixedStore).2
    ∧ AcksPresent (getOp qPlain qPlain 500 none 0 mixedStore emptyStore).2.1
    ∧ AcksPresent (getOp qPlain qPlain 500 none 0 mixedStore emptyStore).2.2.1
    ∧ AcksPresent (cleanOp mixedStore) :=
  ack_field_always_present qPlain qPlain 500 none none 0 (Payload.raw 7) [Payload.raw 5] 0
    mixedStore emptyStore
    (by
      intro d hd
      simp only [mixedStore, deadDoc, freshDoc, List.mem_cons, List.not_mem_nil, or_false] at hd
      rcases hd with rfl | rfl <;> rfl)
    (fun d hd => absurd hd (List.not_mem_nil d))

/-- C7 (amended) witness at a concrete batch with the negative delay `-1`:
payloads come back unchanged in order, tokens are pairwise distinct, and
the shared `visible` is now - 1 (truthiness, not sign). -/
theorem add_addMany_spec_witness :
    ((addManyOp qPlain (some (-1)) [Payload.raw 5, Payload.raw 6] emptyStore).1.map AddRes.payload
      = [Payload.raw 5, Payload.raw 6])
    ∧ (((addManyOp qPlain (some (-1)) [Payload.raw 5, Payload.raw 6] emptyStore).1.map AddRes.ack).Nodup)
    ∧ ((⟨0, Payload.raw 5, 99, some 0, none, 0⟩ : Doc).visible
        = (if (some (-1) : Option Int).getD qPlain.delay ≠ 0 then emptyStore.time + (some (-1) : Option Int).getD qPlain.delay else emptyStore.time)
       ∧ (⟨0, Payload.raw 5, 99, some 0, none, 0⟩ : Doc).deleted = none
       ∧ (⟨0, Payload.raw 5, 99, some 0, none, 0⟩ : Doc).tries = 0
       ∧ (⟨0, Payload.raw 5, 99, some 0, none, 0⟩ : Doc).ack.isSome = true) :=
  ⟨(add_addMany_spec qPlain (some (-1)) (Payload.raw 7) [Payload.raw 5, Payload.raw 6] emptyStore).2.2.1,
   (add_addMany_spec qPlain (some (-1)) (Payload.raw 7) [Payload.raw 5, Payload.raw 6] emptyStore).2.2.2.2.2.2,
   (add_addMany_spec qPlain (some (-1)) (Payload.raw 7) [Payload.raw 5, Payload.raw 6] emptyStore).2.2.2.2.1
     ⟨0, Payload.raw 5, 99, some 0, none, 0⟩ (by decide)⟩

/-- C10 witness at a concrete state: the placeholder token of a freshly
added, delayed (not yet visible), never-claimed message is accepted by both
`ack` and `ping`. -/
theorem placeholder_token_usable_witness :
    addOp qPlain none (Payload.raw 7) mixedStore = (⟨mixedStore.nextId, mixedStore.nextTok, Payload.raw 7⟩, { mixedStore with docs := mixedStore.docs ++ [⟨mixedStore.nextId, Payload.raw 7, mixedStore.time + (none : Option Int).getD qPlain.delay, some mixedStore.nextTok, none, 0⟩], nextId := mixedStore.nextId + 1, nextTok := mixedStore.nextTok + 1 })
    ∧ (⟨mixedStore.nextId, Payload.raw 7, mixedStore.time + (none : Option Int).getD qPlain.delay, some mixedStore.nextTok, none, 0⟩ : Doc).tries = 0
    ∧ mixedStore.time < (⟨mixedStore.nextId, Payload.raw 7, mixedStore.time + (none : Option Int).getD qPlain.delay, some mixedStore.nextTok, none, 0⟩ : Doc).visible
    ∧ ackOp mixedStore.nextTok (addOp qPlain none (Payload.raw 7) mixedStore).2 = (Except.ok mixedStore.nextId, { mixedStore with docs := mixedStore.docs ++ [⟨mixedStore.nextId, Payload.raw 7, mixedStore.time + (none : Option Int).getD qPlain.delay, some mixedStore.nextTok, some mixedStore.time, 0⟩], nextId := mixedStore.nextId + 1, nextTok := mixedStore.nextTok + 1 })
    ∧ pingOp qPlain mixedStore.nextTok none (addOp qPlain none (Payload.raw 7) mixedStore).2 = (Except.ok mixedStore.nextId, { mixedStore with docs := mixedStore.docs ++ [⟨mixedStore.nextId, Payload.raw 7, mixedStore.time + ((((none : Option Nat).getD qPlain.visibility) : Nat) : Int), some mixedStore.nextTok, none, 0⟩], nextId := mixedStore.nextId + 1, nextTok := mixedStore.nextTok + 1 }) :=
  placeholder_token_usable qPlain none none (Payload.raw 7) mixedStore
    mixedStore_tokensBelow (by decide)
